import Mathlib

/-!
Shallow embedding of `src/main.rs` of simple-http-client: a sequential
range-request downloader.  Byte sequences are `List Nat` (each element a
byte value 0..255); the network is modelled by explicit read results and
a per-call oracle; machine `usize` arithmetic is `Nat` with explicit
bounds where the source checks them.
-/

namespace HttpClient

/-- ASCII bytes of a string literal (used only for concrete inputs). -/
def asciiBytes (s : String) : List Nat := s.data.map Char.toNat

/-- The 4-byte header/body separator `\r\n\r\n`. -/
def sepBytes : List Nat := [13, 10, 13, 10]

/-- Does the byte list begin with the separator?  Mirrors the window test
`&response[i..i+4] == b"\r\n\r\n"` at the current index. -/
def isSepAt (l : List Nat) : Bool := decide (l.take 4 = sepBytes)

/-- `extract_body` from main.rs lines 125-138: scan left to right for the
first `\r\n\r\n`; return everything after it, or `[]` when absent. -/
def extract_body : List Nat → List Nat
  | [] => []
  | b :: rest => if isSepAt (b :: rest) then rest.drop 3 else extract_body rest

/-- The separator occurs at index `i` of `l` (all four bytes in range). -/
def SepAt (l : List Nat) (i : Nat) : Prop := (l.drop i).take 4 = sepBytes

instance (l : List Nat) (i : Nat) : Decidable (SepAt l i) := by
  unfold SepAt; infer_instance

/-- `response.windows(4).any(|w| w == b"\r\n\r\n")` from get_total_size. -/
def hasSep (l : List Nat) : Bool := (List.range l.length).any fun i => isSepAt (l.drop i)

/-- The header-reading loop of `get_total_size` (main.rs lines 63-75): each
element of `reads` is one `conn.read` result (at most 1024 bytes); an empty
read is end-of-stream (`Ok(0) => break`); otherwise append and stop as soon
as the accumulated bytes contain the separator. -/
def readLoop : List (List Nat) → List Nat → List Nat
  | [], acc => acc
  | r :: rs, acc =>
    if r.isEmpty then acc
    else
      let acc2 := acc ++ r
      if hasSep acc2 then acc2 else readLoop rs acc2

def readResponse (reads : List (List Nat)) : List Nat := readLoop reads []

/-- Rust `str::split(sep)` on bytes: never returns an empty list. -/
def splitOnByte (sep : Nat) : List Nat → List (List Nat)
  | [] => [[]]
  | b :: rest =>
    let parts := splitOnByte sep rest
    if b = sep then [] :: parts
    else
      match parts with
      | p :: ps => (b :: p) :: ps
      | [] => [[b]]

/-- Strip one trailing carriage return, as `str::lines` does per line. -/
def rstripCR (l : List Nat) : List Nat :=
  if l.getLast? = some 13 then l.dropLast else l

/-- Rust `str::lines` on bytes: split at line feeds, drop a final empty
segment (the final line ending is optional), strip a trailing `\r`. -/
def strLines (l : List Nat) : List (List Nat) :=
  let parts := splitOnByte 10 l
  let parts2 := if parts.getLast? = some [] then parts.dropLast else parts
  parts2.map rstripCR

/-- ASCII lowercasing of one byte (`to_lowercase` restricted to ASCII). -/
def lowerByte (b : Nat) : Nat := if 65 ≤ b ∧ b ≤ 90 then b + 32 else b

/-- The bytes of the field name searched for: `content-length:`. -/
def clName : List Nat := asciiBytes "content-length:"

/-- `line.to_lowercase().starts_with("content-length:")`. -/
def isCLLine (line : List Nat) : Bool :=
  decide ((line.map lowerByte).take clName.length = clName)

/-- ASCII whitespace, as trimmed by Rust `str::trim`. -/
def isWSByte (b : Nat) : Bool := b = 32 ∨ (9 ≤ b ∧ b ≤ 13)

/-- Rust `str::trim` on bytes. -/
def trimBytes (l : List Nat) : List Nat :=
  ((l.dropWhile isWSByte).reverse.dropWhile isWSByte).reverse

def isDigitByte (b : Nat) : Bool := 48 ≤ b ∧ b ≤ 57

/-- Rust `str::parse::<usize>()`: optional leading `+`, then one or more
base-10 digits, value within 64-bit `usize` range. -/
def parseUsize (l : List Nat) : Option Nat :=
  let ds := match l with
    | 43 :: rest => rest
    | l => l
  if ds.isEmpty then none
  else if ds.all isDigitByte then
    let v := ds.foldl (fun acc d => acc * 10 + (d - 48)) 0
    if v < 18446744073709551616 then some v else none
  else none

/-- `line.split(':').nth(1)` then `trim().parse::<usize>().ok()`. -/
def lineValue (line : List Nat) : Option Nat :=
  ((splitOnByte 58 line)[1]?).bind fun v => parseUsize (trimBytes v)

/-- The Content-Length search of `get_total_size` (main.rs lines 78-83):
first line whose lowercasing starts with `content-length:`, then the value
between the first and the second colon, trimmed and parsed. -/
def findCL (lines : List (List Nat)) : Option Nat :=
  (lines.find? isCLLine).bind lineValue

/-- `get_total_size`, as a function of the network's read results.
`none` is the `Err("No Content-Length header")` case (MissingLengthError). -/
def get_total_size (reads : List (List Nat)) : Option Nat :=
  findCL (strLines (readResponse reads))

/-- `let chunk_size = 64 * 1024` of `download_chunk`. -/
def chunk_size : Nat := 64 * 1024

/-- The inclusive byte range requested by `download_chunk` at a given start
offset: `(start_position, start_position + chunk_size - 1)`. -/
def chunkRange (start_position : Nat) : Nat × Nat :=
  (start_position, start_position + chunk_size - 1)

/-- The `Range` header value `format!("bytes={}-{}", start, end)`. -/
def rangeValue (start_position : Nat) : String :=
  "bytes=" ++ toString (chunkRange start_position).1 ++ "-" ++
    toString (chunkRange start_position).2

/-- `download_chunk`'s result as a function of the read results of its
connection: drain everything, return `[]` for an empty response, otherwise
apply the Response Splitter. -/
def download_chunk (reads : List (List Nat)) : List Nat :=
  let response := reads.flatten
  if response.isEmpty then [] else extract_body response

/-! ### SHA-256 (FIPS 180-4), modelling the `sha2` crate used by main.rs.
One `update` over all accumulated bytes followed by `finalize`, printed as
lowercase hex by `format!("{:x}", ...)`. -/

/-- Truncation to a 32-bit word. -/
def w32 (x : Nat) : Nat := x % 4294967296

/-- 32-bit rotate right (argument below `2^32`). -/
def rotr32 (n x : Nat) : Nat := w32 ((x >>> n) ||| (x <<< (32 - n)))

def bigS0 (x : Nat) : Nat := rotr32 2 x ^^^ rotr32 13 x ^^^ rotr32 22 x
def bigS1 (x : Nat) : Nat := rotr32 6 x ^^^ rotr32 11 x ^^^ rotr32 25 x
def smallS0 (x : Nat) : Nat := rotr32 7 x ^^^ rotr32 18 x ^^^ (x >>> 3)
def smallS1 (x : Nat) : Nat := rotr32 17 x ^^^ rotr32 19 x ^^^ (x >>> 10)
def chf (x y z : Nat) : Nat := (x &&& y) ^^^ ((4294967295 - x) &&& z)
def maj (x y z : Nat) : Nat := (x &&& y) ^^^ (x &&& z) ^^^ (y &&& z)

def shaK : List Nat :=
  [1116352408, 1899447441, 3049323471, 3921009573, 961987163,
   1508970993, 2453635748, 2870763221, 3624381080, 310598401,
   607225278, 1426881987, 1925078388, 2162078206, 2614888103,
   3248222580, 3835390401, 4022224774, 264347078, 604807628,
   770255983, 1249150122, 1555081692, 1996064986, 2554220882,
   2821834349, 2952996808, 3210313671, 3336571891, 3584528711,
   113926993, 338241895, 666307205, 773529912, 1294757372,
   1396182291, 1695183700, 1986661051, 2177026350, 2456956037,
   2730485921, 2820302411, 3259730800, 3345764771, 3516065817,
   3600352804, 4094571909, 275423344, 430227734, 506948616,
   659060556, 883997877, 958139571, 1322822218, 1537002063,
   1747873779, 1955562222, 2024104815, 2227730452, 2361852424,
   2428436474, 2756734187, 3204031479, 3329325298]

def shaH0 : List Nat :=
  [1779033703, 3144134277, 1013904242, 2773480762,
   1359893119, 2600822924, 528734635, 1541459225]

/-- Big-endian bytes of a value, `n` bytes wide. -/
def bytesBE : Nat → Nat → List Nat
  | 0, _ => []
  | n + 1, v => ((v >>> (8 * n)) % 256) :: bytesBE n v

/-- SHA-256 padding: `0x80`, zeros, 8-byte big-endian bit length. -/
def padMsg (msg : List Nat) : List Nat :=
  let L := msg.length
  msg ++ 128 :: List.replicate ((119 - L % 64) % 64) 0 ++ bytesBE 8 (8 * L)

/-- Split into 64-byte blocks (the counter only bounds the recursion; the
padded message length is at most its byte count many blocks). -/
def toBlocksAux : Nat → List Nat → List (List Nat)
  | 0, _ => []
  | _ + 1, [] => []
  | n + 1, b :: rest => ((b :: rest).take 64) :: toBlocksAux n ((b :: rest).drop 64)

def toBlocks (l : List Nat) : List (List Nat) := toBlocksAux l.length l

/-- 32-bit big-endian words of a block. -/
def toWords : List Nat → List Nat
  | b0 :: b1 :: b2 :: b3 :: rest =>
    (((b0 * 256 + b1) * 256 + b2) * 256 + b3) :: toWords rest
  | _ => []

/-- Extend the message schedule by one word. -/
def schedNext (ws : List Nat) : List Nat :=
  let n := ws.length
  ws ++ [w32 (smallS1 (ws.getD (n - 2) 0) + ws.getD (n - 7) 0 +
              smallS0 (ws.getD (n - 15) 0) + ws.getD (n - 16) 0)]

/-- The 64-word message schedule from the 16 words of a block. -/
def sched (ws : List Nat) : List Nat :=
  (List.range 48).foldl (fun acc _ => schedNext acc) ws

/-- One compression round on the 8-word working state. -/
def shaStep (st : List Nat) (kw : Nat × Nat) : List Nat :=
  match st with
  | [a, b, c, d, e, f, g, h] =>
    let t1 := w32 (h + bigS1 e + chf e f g + kw.1 + kw.2)
    let t2 := w32 (bigS0 a + maj a b c)
    [w32 (t1 + t2), a, b, c, w32 (d + t1), e, f, g]
  | other => other

/-- Process one 64-byte block. -/
def compressBlock (hs : List Nat) (block : List Nat) : List Nat :=
  let st := (shaK.zip (sched (toWords block))).foldl shaStep hs
  (hs.zip st).map fun p => w32 (p.1 + p.2)

/-- SHA-256 digest (32 bytes) of a byte sequence. -/
def sha256 (msg : List Nat) : List Nat :=
  ((toBlocks (padMsg msg)).foldl compressBlock shaH0).foldr
    (fun w acc => bytesBE 4 w ++ acc) []

def hexDigit (n : Nat) : Char :=
  if n < 10 then Char.ofNat (48 + n) else Char.ofNat (87 + n)

/-- Lowercase-hex rendering of the digest, as `format!("{:x}", ...)`. -/
def sha256Hex (msg : List Nat) : String :=
  String.mk ((sha256 msg).foldr
    (fun b acc => hexDigit (b / 16) :: hexDigit (b % 16) :: acc) [])

/-! ### The Download Orchestrator (`main`, lines 6-48).
The fetching loop's session state; `accepted` and `trace` are ghost fields
recording the accepted chunk bodies and the offset of every
`download_chunk` call, in order. -/

structure LoopState where
  position : Nat
  allData : List Nat
  fileBytes : List Nat
  accepted : List (List Nat)
  trace : List Nat
  deriving Repr, DecidableEq

def initState : LoopState :=
  { position := 0, allData := [], fileBytes := [], accepted := [], trace := [] }

/-- One iteration of the while loop (lines 19-32), given the oracle of
`download_chunk` results by call index (`none` is a hard I/O error, which
aborts via `?`): empty chunk retries the same offset; otherwise the chunk
is written to the file, appended to `all_data`, and `position` advances. -/
def loopStep (oracle : Nat → Option (List Nat)) (s : LoopState) : Option LoopState :=
  match oracle s.trace.length with
  | none => none
  | some chunk =>
    if chunk.isEmpty then
      some { s with trace := s.trace ++ [s.position] }
    else
      some { position := s.position + chunk.length,
             allData := s.allData ++ chunk,
             fileBytes := s.fileBytes ++ chunk,
             accepted := s.accepted ++ [chunk],
             trace := s.trace ++ [s.position] }

/-- Fuel-indexed run of `while position < total_size`.  `none`: fuel ran
out with the loop still running; `some none`: aborted on an I/O error;
`some (some s)`: the loop exited normally in state `s`. -/
def runLoop (total : Nat) (oracle : Nat → Option (List Nat)) :
    Nat → LoopState → Option (Option LoopState)
  | 0, s => if s.position < total then none else some (some s)
  | fuel + 1, s =>
    if s.position < total then
      match loopStep oracle s with
      | none => some none
      | some s2 => runLoop total oracle fuel s2
    else some (some s)

/-- The observable outcome of a run of `main`. -/
inductive MainOutcome where
  | missingLength : MainOutcome
  | connectionFailed : MainOutcome
  | done : Nat → LoopState → Bool → List Nat → MainOutcome
  deriving Repr, DecidableEq

/-- `main`: discover the size (abort on `MissingLengthError` before any
chunk fetch), run the fetching loop, then report: the warning flag is the
size-mismatch comparison of line 35, the digest is SHA-256 of `all_data`. -/
def mainRun (sizeReads : List (List Nat)) (oracle : Nat → Option (List Nat))
    (fuel : Nat) : Option MainOutcome :=
  match get_total_size sizeReads with
  | none => some .missingLength
  | some total =>
    match runLoop total oracle fuel initState with
    | none => none
    | some none => some .connectionFailed
    | some (some s) =>
      some (.done total s (s.allData.length != total) (sha256 s.allData))

/-- Ghost bookkeeping invariant tying the file bytes, the hash input, the
accepted chunk list and the call trace together. -/
def GhostInv (oracle : Nat → Option (List Nat)) (s : LoopState) : Prop :=
  s.allData = s.fileBytes ∧ s.fileBytes = s.accepted.flatten ∧
  (∀ c ∈ s.accepted, c ≠ []) ∧
  s.accepted = ((List.range s.trace.length).filterMap oracle).filter
    (fun c => !c.isEmpty)

/-- A 65537-byte chunk body (one byte longer than the 64 KiB window):
the peer is free to send more than the requested range. -/
def bigChunk : List Nat := 7 :: List.replicate 65536 7

def bigOracle : Nat → Option (List Nat) := fun _ => some bigChunk

def bigState : LoopState :=
  { position := 65537, allData := bigChunk, fileBytes := bigChunk,
    accepted := [bigChunk], trace := [0] }

def smallOracle : Nat → Option (List Nat) := fun _ => some [1, 2]

def smallFinal : LoopState :=
  { position := 4, allData := [1, 2, 1, 2], fileBytes := [1, 2, 1, 2],
    accepted := [[1, 2], [1, 2]], trace := [0, 2] }

def retryOracle : Nat → Option (List Nat) :=
  fun i => if i < 2 then some [] else some [9, 9, 9]

def r100 : List (List Nat) :=
  [asciiBytes "HTTP/1.1 200 OK\r\nContent-Length: 100\r\n\r\n"]

def chunk110 : List Nat := List.replicate 110 1

def oracle110 : Nat → Option (List Nat) := fun _ => some chunk110

def state110 : LoopState :=
  { position := 110, allData := chunk110, fileBytes := chunk110,
    accepted := [chunk110], trace := [0] }

def reads0 : List (List Nat) :=
  [asciiBytes "HTTP/1.1 200 OK\r\nContent-Length: 0\r\n\r\n"]

def c10reads : List (List Nat) :=
  [asciiBytes "HTTP/1.1 200 OK\r\nServer: x\r\n\r\ncontent-length: 5\r\n"]

def r4 : List (List Nat) :=
  [asciiBytes "HTTP/1.1 200 OK\r\nContent-Length: 4\r\n\r\n"]

def oracle12 : Nat → Option (List Nat) :=
  fun i => if i = 0 then some [1, 2] else some [3, 4]

def st4 : LoopState :=
  { position := 4, allData := [1, 2, 3, 4], fileBytes := [1, 2, 3, 4],
    accepted := [[1, 2], [3, 4]], trace := [0, 2] }

/-! ## Helper lemmas -/

theorem sepAt_cons_succ (b : Nat) (rest : List Nat) (i : Nat) :
    SepAt (b :: rest) (i + 1) ↔ SepAt rest i := by
  simp [SepAt]

theorem isSepAt_iff (l : List Nat) : isSepAt l = true ↔ SepAt l 0 := by
  simp [isSepAt, SepAt]

theorem extract_body_of_first : ∀ (l : List Nat) (i : Nat), SepAt l i →
    (∀ j, j < i → ¬ SepAt l j) → extract_body l = l.drop (i + 4) := by
  intro l
  induction l with
  | nil => intro i h _; simp [SepAt, sepBytes] at h
  | cons b rest ih =>
    intro i h hmin
    cases i with
    | zero =>
      rw [extract_body, if_pos ((isSepAt_iff _).mpr h)]
      rfl
    | succ k =>
      have h0 : isSepAt (b :: rest) = false := by
        cases hs : isSepAt (b :: rest)
        · rfl
        · exact absurd ((isSepAt_iff _).mp hs) (hmin 0 (Nat.succ_pos k))
      rw [extract_body, if_neg (by simp [h0])]
      have hrest : SepAt rest k := (sepAt_cons_succ b rest k).mp h
      have hminRest : ∀ j, j < k → ¬ SepAt rest j := fun j hj hsep =>
        hmin (j + 1) (Nat.succ_lt_succ hj) ((sepAt_cons_succ b rest j).mpr hsep)
      rw [ih k hrest hminRest]
      rfl

theorem extract_body_of_none : ∀ (l : List Nat), (∀ i, ¬ SepAt l i) →
    extract_body l = [] := by
  intro l
  induction l with
  | nil => intro _; rfl
  | cons b rest ih =>
    intro h
    have h0 : isSepAt (b :: rest) = false := by
      cases hs : isSepAt (b :: rest)
      · rfl
      · exact absurd ((isSepAt_iff _).mp hs) (h 0)
    rw [extract_body, if_neg (by simp [h0])]
    exact ih fun i hsep => h (i + 1) ((sepAt_cons_succ b rest i).mpr hsep)

/-! ## Claims -/

/-- C2: for every byte sequence, `extract_body` returns the bytes after the
end of the first (leftmost) occurrence of `\r\n\r\n` (the bytes after index
`i+3` where `i` is the first index of the separator), and the empty
sequence when no occurrence exists; it is a total pure function. -/
theorem c2_splitter (l : List Nat) :
    (∀ i, SepAt l i → (∀ j, j < i → ¬ SepAt l j) → extract_body l = l.drop (i + 4)) ∧
    ((∀ i, ¬ SepAt l i) → extract_body l = []) :=
  ⟨fun i h hmin => extract_body_of_first l i h hmin, extract_body_of_none l⟩

/-- Witness for C2 at a concrete input: the separator first occurs at
index 2 of `AB\r\n\r\nCD`, and the splitter returns the bytes from index 6. -/
theorem c2_splitter_witness :
    SepAt (asciiBytes "AB\r\n\r\nCD") 2 ∧
    extract_body (asciiBytes "AB\r\n\r\nCD") = asciiBytes "CD" := by
  refine ⟨by decide, ?_⟩
  have h := (c2_splitter (asciiBytes "AB\r\n\r\nCD")).1 2 (by decide)
    (by decide)
  rw [h]; decide

/-- C3: the chunk request issued at offset `p` requests exactly the
inclusive byte range `[p, p + W - 1]` with `W = 64 KiB = 65536`: its lower
endpoint is `p`, its upper endpoint is `p + W - 1`, and the inclusive
range contains exactly `W` byte indices. -/
theorem c3_range (p : Nat) :
    chunkRange p = (p, p + chunk_size - 1) ∧
    chunk_size = 65536 ∧
    (chunkRange p).2 + 1 - (chunkRange p).1 = chunk_size ∧
    (Finset.Icc (chunkRange p).1 (chunkRange p).2).card = chunk_size := by
  refine ⟨rfl, rfl, ?_, ?_⟩
  · simp only [chunkRange, chunk_size]
    omega
  · rw [Nat.card_Icc]
    simp only [chunkRange, chunk_size]
    omega

theorem find?_eq_some_split {α : Type} (p : α → Bool) :
    ∀ (l : List α) (a : α), l.find? p = some a ↔
      ∃ pre post, l = pre ++ a :: post ∧ p a = true ∧ ∀ x ∈ pre, p x = false := by
  intro l
  induction l with
  | nil => intro a; simp
  | cons b rest ih =>
    intro a
    cases hb : p b with
    | true =>
      rw [List.find?_cons_of_pos _ hb]
      constructor
      · intro h
        exact ⟨[], rest, by simp [Option.some.inj h], (Option.some.inj h) ▸ hb,
          by simp⟩
      · rintro ⟨pre, post, heq, hpa, hpre⟩
        cases pre with
        | nil => simp at heq; simp [heq.1]
        | cons q qs =>
          have hqb : q = b := by
            have := congrArg (fun l => l.headD q) heq
            simp at this
            exact this.symm
          have := hpre q (by simp)
          rw [hqb, hb] at this
          exact absurd this (by simp)
    | false =>
      rw [List.find?_cons_of_neg _ (by simp [hb])]
      rw [ih a]
      constructor
      · rintro ⟨pre, post, heq, hpa, hpre⟩
        exact ⟨b :: pre, post, by simp [heq], hpa, by
          intro x hx
          rcases List.mem_cons.mp hx with hx | hx
          · rw [hx]; exact hb
          · exact hpre x hx⟩
      · rintro ⟨pre, post, heq, hpa, hpre⟩
        cases pre with
        | nil =>
          simp at heq
          rw [heq.1] at hb
          rw [hb] at hpa
          exact absurd hpa (by simp)
        | cons q qs =>
          simp at heq
          exact ⟨qs, post, heq.2, hpa, fun x hx => hpre x (by simp [hx])⟩

/-- C4: size discovery returns `some v` exactly when the first line of the
accumulated response whose lowercasing begins with `content-length:` has a
value (the trimmed text between the first and second colon) parsing as a
base-10 non-negative integer `v`; it fails (the `No Content-Length header`
error) exactly when no such line exists or that first matching line's
value does not parse; and on failure the whole run aborts with
`missingLength` regardless of the chunk oracle, i.e. before any chunk
fetch occurs. -/
theorem c4_size_discovery (reads : List (List Nat)) :
    (∀ v, get_total_size reads = some v ↔
      ∃ pre line post, strLines (readResponse reads) = pre ++ line :: post ∧
        (∀ l2 ∈ pre, isCLLine l2 = false) ∧ isCLLine line = true ∧
        lineValue line = some v) ∧
    (get_total_size reads = none ↔
      (∀ line ∈ strLines (readResponse reads), isCLLine line = false) ∨
      ∃ pre line post, strLines (readResponse reads) = pre ++ line :: post ∧
        (∀ l2 ∈ pre, isCLLine l2 = false) ∧ isCLLine line = true ∧
        lineValue line = none) ∧
    (get_total_size reads = none →
      ∀ oracle fuel, mainRun reads oracle fuel = some .missingLength) := by
  refine ⟨?_, ?_, ?_⟩
  · intro v
    rw [get_total_size, findCL, Option.bind_eq_some]
    constructor
    · rintro ⟨line, hfind, hval⟩
      obtain ⟨pre, post, heq, hpa, hpre⟩ := (find?_eq_some_split _ _ _).mp hfind
      exact ⟨pre, line, post, heq, hpre, hpa, hval⟩
    · rintro ⟨pre, line, post, heq, hpre, hpa, hval⟩
      exact ⟨line, (find?_eq_some_split _ _ _).mpr ⟨pre, post, heq, hpa, hpre⟩, hval⟩
  · rw [get_total_size, findCL]
    cases hfind : (strLines (readResponse reads)).find? isCLLine with
    | none =>
      simp only [Option.none_bind, true_iff]
      left
      intro line hline
      have := List.find?_eq_none.mp hfind line hline
      simpa using this
    | some line =>
      simp only [Option.some_bind]
      obtain ⟨pre, post, heq, hpa, hpre⟩ := (find?_eq_some_split _ _ _).mp hfind
      constructor
      · intro hval
        exact Or.inr ⟨pre, line, post, heq, hpre, hpa, hval⟩
      · rintro (hall | ⟨pre2, line2, post2, heq2, hpre2, hpa2, hval2⟩)
        · exact absurd hpa (by simp [hall line (heq ▸ by simp)])
        · have : line2 = line := by
            have hf2 : (strLines (readResponse reads)).find? isCLLine = some line2 :=
              (find?_eq_some_split _ _ _).mpr ⟨pre2, post2, heq2, hpa2, hpre2⟩
            exact Option.some.inj (hf2 ▸ hfind)
          rw [← this]; exact hval2
  · intro hnone oracle fuel
    rw [mainRun, hnone]

/-- Witness for C4 at a concrete input: a response whose headers carry no
content-length field makes the whole run abort with `missingLength`,
independently of the chunk oracle. -/
theorem c4_size_discovery_witness :
    mainRun [asciiBytes "HTTP/1.1 200 OK\r\nServer: x\r\n\r\n"]
      (fun _ => some [1]) 7 = some .missingLength :=
  (c4_size_discovery [asciiBytes "HTTP/1.1 200 OK\r\nServer: x\r\n\r\n"]).2.2
    (by decide) (fun _ => some [1]) 7

/-! ## Lemmas about the fetching loop -/

/-- Every successful `loopStep` is either a retry on an empty chunk or an
acceptance of a non-empty chunk. -/
theorem loopStep_char (oracle : Nat → Option (List Nat)) (s s2 : LoopState)
    (h : loopStep oracle s = some s2) :
    ∃ chunk, oracle s.trace.length = some chunk ∧
      ((chunk.isEmpty = true ∧ s2 = { s with trace := s.trace ++ [s.position] }) ∨
       (chunk.isEmpty = false ∧ s2 =
         { position := s.position + chunk.length,
           allData := s.allData ++ chunk,
           fileBytes := s.fileBytes ++ chunk,
           accepted := s.accepted ++ [chunk],
           trace := s.trace ++ [s.position] })) := by
  cases horacle : oracle s.trace.length with
  | none =>
    simp only [loopStep, horacle] at h
    exact absurd h (by simp)
  | some chunk =>
    simp only [loopStep, horacle] at h
    by_cases hempty : chunk.isEmpty
    · rw [if_pos hempty] at h
      exact ⟨chunk, rfl, Or.inl ⟨hempty, (Option.some.inj h).symm⟩⟩
    · rw [if_neg hempty] at h
      exact ⟨chunk, rfl,
        Or.inr ⟨Bool.eq_false_iff.mpr hempty, (Option.some.inj h).symm⟩⟩

theorem loopStep_retry (oracle : Nat → Option (List Nat)) (s : LoopState)
    (chunk : List Nat) (h : oracle s.trace.length = some chunk)
    (hempty : chunk.isEmpty = true) :
    loopStep oracle s = some { s with trace := s.trace ++ [s.position] } := by
  simp only [loopStep, h, hempty, if_true]

theorem loopStep_accept (oracle : Nat → Option (List Nat)) (s : LoopState)
    (chunk : List Nat) (h : oracle s.trace.length = some chunk)
    (hempty : chunk.isEmpty = false) :
    loopStep oracle s = some
      { position := s.position + chunk.length,
        allData := s.allData ++ chunk,
        fileBytes := s.fileBytes ++ chunk,
        accepted := s.accepted ++ [chunk],
        trace := s.trace ++ [s.position] } := by
  simp only [loopStep, h, hempty, if_false, Bool.false_eq_true]

theorem loopStep_len (oracle : Nat → Option (List Nat)) (s s2 : LoopState)
    (h : loopStep oracle s = some s2) (hl : s.allData.length = s.position) :
    s2.allData.length = s2.position := by
  obtain ⟨chunk, _, hcase | hcase⟩ := loopStep_char oracle s s2 h
  · rw [hcase.2]; exact hl
  · rw [hcase.2]; simp [hl]

theorem loopStep_mono (oracle : Nat → Option (List Nat)) (s s2 : LoopState)
    (h : loopStep oracle s = some s2) : s.position ≤ s2.position := by
  obtain ⟨chunk, _, hcase | hcase⟩ := loopStep_char oracle s s2 h
  · rw [hcase.2]
  · rw [hcase.2]; simp

/-- Any property preserved by `loopStep` holds of the final state of a
completed loop, which moreover satisfies the exit condition. -/
theorem runLoop_reach (total : Nat) (oracle : Nat → Option (List Nat))
    (P : LoopState → Prop)
    (hstep : ∀ s s2, s.position < total → loopStep oracle s = some s2 →
      P s → P s2) :
    ∀ (fuel : Nat) (s sf : LoopState), P s →
      runLoop total oracle fuel s = some (some sf) →
      P sf ∧ total ≤ sf.position := by
  intro fuel
  induction fuel with
  | zero =>
    intro s sf hP h
    rw [runLoop] at h
    by_cases hpos : s.position < total
    · rw [if_pos hpos] at h; exact absurd h (by simp)
    · rw [if_neg hpos] at h
      have hss := Option.some.inj (Option.some.inj h)
      subst hss
      exact ⟨hP, by omega⟩
  | succ fuel ih =>
    intro s sf hP h
    rw [runLoop] at h
    by_cases hpos : s.position < total
    · rw [if_pos hpos] at h
      cases hst : loopStep oracle s with
      | none => rw [hst] at h; exact absurd h (by simp)
      | some s2 =>
        rw [hst] at h
        exact ih s2 sf (hstep s s2 hpos hst hP) h
    · rw [if_neg hpos] at h
      have hss := Option.some.inj (Option.some.inj h)
      subst hss
      exact ⟨hP, by omega⟩

theorem runLoop_len (total : Nat) (oracle : Nat → Option (List Nat))
    (fuel : Nat) (s sf : LoopState) (hl : s.allData.length = s.position)
    (h : runLoop total oracle fuel s = some (some sf)) :
    sf.allData.length = sf.position :=
  (runLoop_reach total oracle (fun t => t.allData.length = t.position)
    (fun a b _ hab hla => loopStep_len oracle a b hab hla) fuel s sf hl h).1

theorem runLoop_mono (total : Nat) (oracle : Nat → Option (List Nat))
    (fuel : Nat) (s sf : LoopState)
    (h : runLoop total oracle fuel s = some (some sf)) :
    s.position ≤ sf.position :=
  (runLoop_reach total oracle (fun t => s.position ≤ t.position)
    (fun a b _ hab hle => le_trans hle (loopStep_mono oracle a b hab))
    fuel s sf le_rfl h).1

theorem runLoop_exit (total : Nat) (oracle : Nat → Option (List Nat))
    (fuel : Nat) (s sf : LoopState)
    (h : runLoop total oracle fuel s = some (some sf)) :
    total ≤ sf.position :=
  (runLoop_reach total oracle (fun _ => True) (fun _ _ _ _ _ => trivial)
    fuel s sf trivial h).2

/-- The final state of a completed loop either is the initial state, or is
produced by one `loopStep` from a state whose position was still below
`total`. -/
theorem runLoop_lastStep (total : Nat) (oracle : Nat → Option (List Nat)) :
    ∀ (fuel : Nat) (s sf : LoopState),
      runLoop total oracle fuel s = some (some sf) →
      sf = s ∨ ∃ s0, s0.position < total ∧ loopStep oracle s0 = some sf := by
  intro fuel
  induction fuel with
  | zero =>
    intro s sf h
    rw [runLoop] at h
    by_cases hpos : s.position < total
    · rw [if_pos hpos] at h; exact absurd h (by simp)
    · rw [if_neg hpos] at h
      exact Or.inl (Option.some.inj (Option.some.inj h)).symm
  | succ fuel ih =>
    intro s sf h
    rw [runLoop] at h
    by_cases hpos : s.position < total
    · rw [if_pos hpos] at h
      cases hstep : loopStep oracle s with
      | none => rw [hstep] at h; exact absurd h (by simp)
      | some s2 =>
        rw [hstep] at h
        rcases ih s2 sf h with heq | hex
        · exact Or.inr ⟨s, hpos, heq ▸ hstep⟩
        · exact Or.inr hex
    · rw [if_neg hpos] at h
      exact Or.inl (Option.some.inj (Option.some.inj h)).symm

theorem ghostInv_init (oracle : Nat → Option (List Nat)) :
    GhostInv oracle initState := by
  refine ⟨rfl, rfl, by simp [initState], ?_⟩
  simp [initState]

theorem filterMap_range_succ_of_some (oracle : Nat → Option (List Nat))
    (n : Nat) (chunk : List Nat) (h : oracle n = some chunk) :
    (List.range (n + 1)).filterMap oracle =
      (List.range n).filterMap oracle ++ [chunk] := by
  rw [List.range_succ, List.filterMap_append]
  simp [h]

theorem ghostInv_step (oracle : Nat → Option (List Nat)) (s s2 : LoopState)
    (hinv : GhostInv oracle s) (hstep : loopStep oracle s = some s2) :
    GhostInv oracle s2 := by
  obtain ⟨h1, h2, h3, h4⟩ := hinv
  obtain ⟨chunk, horacle, hcase | hcase⟩ := loopStep_char oracle s s2 hstep
  · rw [hcase.2]
    refine ⟨h1, h2, h3, ?_⟩
    simp only [List.length_append, List.length_singleton,
      filterMap_range_succ_of_some oracle s.trace.length chunk horacle,
      List.filter_append]
    rw [← h4]
    simp [hcase.1]
  · rw [hcase.2]
    refine ⟨?_, ?_, ?_, ?_⟩
    · simp [h1]
    · simp [h2]
    · intro c hc
      rcases List.mem_append.mp hc with hc | hc
      · exact h3 c hc
      · simp at hc
        rw [hc]
        intro hnil
        rw [hnil] at hcase
        simp at hcase
    · simp only [List.length_append, List.length_singleton,
        filterMap_range_succ_of_some oracle s.trace.length chunk horacle,
        List.filter_append]
      rw [← h4]
      simp [hcase.1]

theorem runLoop_ghost (total : Nat) (oracle : Nat → Option (List Nat))
    (fuel : Nat) (s sf : LoopState) (hinv : GhostInv oracle s)
    (h : runLoop total oracle fuel s = some (some sf)) :
    GhostInv oracle sf :=
  (runLoop_reach total oracle (GhostInv oracle)
    (fun a b _ hab ha => ghostInv_step oracle a b ha hab) fuel s sf hinv h).1

/-- Destructing a completed `mainRun` into its discovery result and loop
result. -/
theorem mainRun_done (sizeReads : List (List Nat))
    (oracle : Nat → Option (List Nat)) (fuel total : Nat) (s : LoopState)
    (w : Bool) (d : List Nat)
    (h : mainRun sizeReads oracle fuel = some (.done total s w d)) :
    get_total_size sizeReads = some total ∧
    runLoop total oracle fuel initState = some (some s) ∧
    w = (s.allData.length != total) ∧ d = sha256 s.allData := by
  cases hg : get_total_size sizeReads with
  | none =>
    simp only [mainRun, hg] at h
    exact absurd (Option.some.inj h) (by simp)
  | some total2 =>
    simp only [mainRun, hg] at h
    cases hr : runLoop total2 oracle fuel initState with
    | none => rw [hr] at h; exact absurd h (by simp)
    | some r =>
      rw [hr] at h
      cases r with
      | none => exact absurd (Option.some.inj h) (by simp)
      | some s2 =>
        have h2 := Option.some.inj h
        simp only [MainOutcome.done.injEq] at h2
        obtain ⟨ht, hs, hw, hd⟩ := h2
        subst ht; subst hs
        exact ⟨rfl, hr, hw.symm, hd.symm⟩

/-- C1: in every run that reaches the Reporting state, the bytes written
to the output file equal the concatenation, in acceptance order, of the
non-empty chunk bodies accepted by the fetching loop (which are exactly
the non-empty results among the chunk fetches made, in call order), these
are also the hash input, and the reported digest is the SHA-256 of exactly
those bytes. -/
theorem c1_assembly_digest (sizeReads : List (List Nat))
    (oracle : Nat → Option (List Nat)) (fuel total : Nat) (s : LoopState)
    (w : Bool) (d : List Nat)
    (h : mainRun sizeReads oracle fuel = some (.done total s w d)) :
    s.fileBytes = s.accepted.flatten ∧
    s.allData = s.fileBytes ∧
    (∀ c ∈ s.accepted, c ≠ []) ∧
    s.accepted = ((List.range s.trace.length).filterMap oracle).filter
      (fun c => !c.isEmpty) ∧
    d = sha256 s.fileBytes := by
  obtain ⟨hg, hr, hw, hd⟩ := mainRun_done sizeReads oracle fuel total s w d h
  obtain ⟨h1, h2, h3, h4⟩ :=
    runLoop_ghost total oracle fuel initState s (ghostInv_init oracle) hr
  exact ⟨h2, h1, h3, h4, by rw [hd, h1]⟩

/-- When every chunk the oracle can return is at most `chunk_size` long,
the loop's exit position overshoots `total` by at most `chunk_size - 1`. -/
theorem runLoop_overshoot (total : Nat) (oracle : Nat → Option (List Nat))
    (hbound : ∀ i c, oracle i = some c → c.length ≤ chunk_size)
    (fuel : Nat) (s sf : LoopState) (hs : s.position ≤ total)
    (h : runLoop total oracle fuel s = some (some sf)) :
    sf.position ≤ total + (chunk_size - 1) := by
  have hcs : chunk_size = 65536 := rfl
  rcases runLoop_lastStep total oracle fuel s sf h with heq | ⟨s0, hpos, hstep⟩
  · subst heq
    omega
  · obtain ⟨chunk, horacle, hcase | hcase⟩ := loopStep_char oracle s0 sf hstep
    · rw [hcase.2]
      simp only
      omega
    · have hclen := hbound s0.trace.length chunk horacle
      rw [hcase.2]
      simp only
      omega

/-- C6 (amended): throughout the run the accumulated buffer's length
equals `position` and `position` is monotonically non-decreasing; the loop
only exits once `position ≥ total_size`; and — provided every chunk body
the fetcher can return is at most `WINDOW = chunk_size` bytes long, as
when the peer honours the requested range — the exit position exceeds
`total_size` by at most `WINDOW - 1` bytes.  (The unconditional overshoot
bound of the original claim is refuted by `c6_counterexample`.) -/
theorem c6_invariants_amended (total : Nat) (oracle : Nat → Option (List Nat))
    (fuel : Nat) (s sf : LoopState)
    (hlen : s.allData.length = s.position) (hs : s.position ≤ total)
    (hbound : ∀ i c, oracle i = some c → c.length ≤ chunk_size)
    (h : runLoop total oracle fuel s = some (some sf)) :
    sf.allData.length = sf.position ∧ s.position ≤ sf.position ∧
    total ≤ sf.position ∧ sf.position ≤ total + (chunk_size - 1) :=
  ⟨runLoop_len total oracle fuel s sf hlen h,
   runLoop_mono total oracle fuel s sf h,
   runLoop_exit total oracle fuel s sf h,
   runLoop_overshoot total oracle hbound fuel s sf hs h⟩

/-- Counterexample to C6 as stated: with `total_size = 1` and a peer that
answers the ranged request with a 65537-byte body, the loop exits with
`position = 65537 > total_size + (WINDOW - 1) = 65536`, so the claimed
unconditional overshoot bound of `WINDOW - 1` bytes fails. -/
theorem c6_counterexample :
    ∃ sf, runLoop 1 bigOracle 2 initState = some (some sf) ∧
      1 + (chunk_size - 1) < sf.position := by
  have hlen : bigChunk.length = 65537 := by
    have htb : (7 :: List.replicate 65536 (7 : Nat)).length = 65537 := by
      rw [List.length_cons, List.length_replicate 65536 7]
    exact htb
  have hne : bigChunk.isEmpty = false := rfl
  have hstep : loopStep bigOracle initState = some bigState := by
    rw [loopStep_accept bigOracle initState bigChunk rfl hne]
    have hp : initState.position + bigChunk.length = 65537 := by
      rw [hlen]
      rfl
    rw [hp]
    rfl
  have h2 : runLoop 1 bigOracle (1 + 1) initState = some (some bigState) := by
    rw [runLoop, if_pos (by decide : initState.position < 1)]
    rw [hstep]
    show runLoop 1 bigOracle (0 + 1) bigState = some (some bigState)
    rw [runLoop, if_neg (by simp [bigState])]
  exact ⟨bigState, h2, by simp [bigState, chunk_size]⟩

/-- Witness for the amended C6 at a concrete input: `total_size = 3`, two
accepted 2-byte chunks, exit position 4 within the overshoot bound. -/
theorem c6_invariants_amended_witness :
    smallFinal.allData.length = smallFinal.position ∧
    initState.position ≤ smallFinal.position ∧
    3 ≤ smallFinal.position ∧
    smallFinal.position ≤ 3 + (chunk_size - 1) :=
  c6_invariants_amended 3 smallOracle 5 initState smallFinal rfl
    (by decide)
    (fun i c hic => by
      injection hic with h2
      rw [← h2]
      decide)
    (by decide)

/-- C5: if, starting from a state at offset `position` still below
`total`, the fetcher yields an empty body on its next `k` calls and a
non-empty body `c` on call `k+1`, the orchestrator makes exactly `k+1`
calls at that same offset (the trace grows by `k+1` copies of the offset),
only then advances the position by `c`'s length, and the run continues
from the advanced state; there is no bound on `k` and no other action
between the attempts. -/
theorem c5_retry (total : Nat) (oracle : Nat → Option (List Nat)) :
    ∀ (k : Nat) (s : LoopState) (c : List Nat) (fuel : Nat),
      s.position < total →
      (∀ m, m < k → oracle (s.trace.length + m) = some []) →
      oracle (s.trace.length + k) = some c → c ≠ [] →
      runLoop total oracle (fuel + (k + 1)) s =
        runLoop total oracle fuel
          { position := s.position + c.length,
            allData := s.allData ++ c,
            fileBytes := s.fileBytes ++ c,
            accepted := s.accepted ++ [c],
            trace := s.trace ++ List.replicate (k + 1) s.position } := by
  intro k
  induction k with
  | zero =>
    intro s c fuel hpos hm hc hcne
    have hc0 : oracle s.trace.length = some c := by simpa using hc
    have hcempty : c.isEmpty = false := by
      cases c
      · exact absurd rfl hcne
      · rfl
    show runLoop total oracle (fuel + 1) s = _
    rw [runLoop, if_pos hpos, loopStep_accept oracle s c hc0 hcempty]
    show runLoop total oracle fuel _ = _
    congr 1
  | succ k ih =>
    intro s c fuel hpos hm hc hcne
    have h0 : oracle s.trace.length = some [] := by
      simpa using hm 0 (Nat.succ_pos k)
    rw [show fuel + (k + 1 + 1) = (fuel + (k + 1)) + 1 from by omega]
    rw [runLoop, if_pos hpos, loopStep_retry oracle s [] h0 rfl]
    show runLoop total oracle (fuel + (k + 1))
      { s with trace := s.trace ++ [s.position] } = _
    have hlen1 : (s.trace ++ [s.position]).length = s.trace.length + 1 := by
      simp
    have hm2 : ∀ m, m < k →
        oracle (({ s with trace := s.trace ++ [s.position] } :
          LoopState).trace.length + m) = some [] := by
      intro m hmk
      have harg : ({ s with trace := s.trace ++ [s.position] } :
          LoopState).trace.length + m = s.trace.length + (m + 1) := by
        simp only [hlen1]
        omega
      rw [harg]
      exact hm (m + 1) (by omega)
    have hc2 : oracle (({ s with trace := s.trace ++ [s.position] } :
        LoopState).trace.length + k) = some c := by
      have harg : ({ s with trace := s.trace ++ [s.position] } :
          LoopState).trace.length + k = s.trace.length + (k + 1) := by
        simp only [hlen1]
        omega
      rw [harg]
      exact hc
    rw [ih { s with trace := s.trace ++ [s.position] } c fuel hpos hm2 hc2 hcne]
    congr 1
    simp [List.replicate_succ]

/-- Witness for C5 at a concrete input: `k = 2` empty bodies then a
3-byte body at offset 0 with `total_size = 5`: exactly 3 calls are made at
offset 0 (the trace gains `[0, 0, 0]`), then the position advances to 3. -/
theorem c5_retry_witness :
    runLoop 5 retryOracle (0 + (2 + 1)) initState =
      runLoop 5 retryOracle 0
        { position := initState.position + [9, 9, 9].length,
          allData := initState.allData ++ [9, 9, 9],
          fileBytes := initState.fileBytes ++ [9, 9, 9],
          accepted := initState.accepted ++ [[9, 9, 9]],
          trace := initState.trace ++ List.replicate (2 + 1) initState.position } :=
  c5_retry 5 retryOracle 2 initState [9, 9, 9] 0 (by decide)
    (fun m hm => by
      have hm01 : m = 0 ∨ m = 1 := by omega
      rcases hm01 with h | h <;> subst h <;> rfl)
    (by rfl) (by decide)

/-- Counterexample to C7 as stated: no run whatsoever can discover
`total_size = 100` and have its fetching loop exit with only 90
accumulated bytes, because the loop condition `position < total_size`
keeps the loop running until `position ≥ total_size` and the accumulated
length always equals `position`. -/
theorem c7_counterexample : ¬ ∃ (sizeReads : List (List Nat))
    (oracle : Nat → Option (List Nat)) (fuel : Nat) (sf : LoopState)
    (w : Bool) (d : List Nat),
    mainRun sizeReads oracle fuel = some (.done 100 sf w d) ∧
    sf.allData.length = 90 := by
  rintro ⟨sr, oracle, fuel, sf, w, d, h, h90⟩
  obtain ⟨hg, hr, hw, hd⟩ := mainRun_done sr oracle fuel 100 sf w d h
  have hlen := runLoop_len 100 oracle fuel initState sf rfl hr
  have hexit := runLoop_exit 100 oracle fuel initState sf hr
  omega

/-- C7 (amended): the fetching loop can never exit with fewer accumulated
bytes than `total_size` (so the claimed 100-versus-90 run cannot exist),
but a run can exit with more — concretely, `total_size = 100` with a
110-byte chunk body; in that run and in every run whose final accumulated
length differs from `total_size`, the program emits the mismatch warning
rather than failing, still completes, and reports a digest over the bytes
actually collected. -/
theorem c7_mismatch_amended :
    (mainRun r100 oracle110 1 =
        some (.done 100 state110 true (sha256 chunk110)) ∧
      state110.allData.length = 110) ∧
    (∀ sizeReads oracle fuel total sf w d,
      mainRun sizeReads oracle fuel = some (.done total sf w d) →
      ((w = true) ↔ sf.allData.length ≠ total) ∧ d = sha256 sf.allData ∧
      total ≤ sf.allData.length) := by
  constructor
  · constructor
    · have hg : get_total_size r100 = some 100 := by decide
      have hstep : loopStep oracle110 initState = some state110 := by
        rw [loopStep_accept oracle110 initState chunk110 rfl rfl]
        have hp : initState.position + chunk110.length = 110 := by decide
        rw [hp]
        rfl
      have hrl : runLoop 100 oracle110 (0 + 1) initState =
          some (some state110) := by
        rw [runLoop, if_pos (by decide : initState.position < 100), hstep]
        show runLoop 100 oracle110 0 state110 = some (some state110)
        rw [runLoop, if_neg (by decide : ¬ state110.position < 100)]
      have hrl1 : runLoop 100 oracle110 1 initState = some (some state110) :=
        hrl
      simp only [mainRun, hg, hrl1]
      rfl
    · decide
  · intro sizeReads oracle fuel total sf w d h
    obtain ⟨hg, hr, hw, hd⟩ := mainRun_done sizeReads oracle fuel total sf w d h
    have hlen := runLoop_len total oracle fuel initState sf rfl hr
    have hexit := runLoop_exit total oracle fuel initState sf hr
    refine ⟨?_, hd, by omega⟩
    rw [hw]
    simp [bne_iff_ne]

/-- C8: whenever size discovery returns 0, the fetching loop performs zero
iterations — the final session state is the initial one, so no chunk fetch
was issued (`trace = []`) and the output file is empty — and the reported
digest is the SHA-256 of the empty byte sequence (whose hex rendering is
the well-known constant), with no mismatch warning. -/
theorem c8_zero_length (reads : List (List Nat))
    (oracle : Nat → Option (List Nat)) (fuel : Nat)
    (h : get_total_size reads = some 0) :
    mainRun reads oracle fuel = some (.done 0 initState false (sha256 [])) ∧
    initState.trace = [] ∧ initState.fileBytes = [] ∧
    sha256Hex [] =
      "e3b0c44298fc1c149afbf4c8996fb92427ae41e4649b934ca495991b7852b855" := by
  have hrl : runLoop 0 oracle fuel initState = some (some initState) := by
    cases fuel <;> rw [runLoop] <;>
      rw [if_neg (by decide : ¬ initState.position < 0)]
  refine ⟨?_, rfl, rfl, by decide⟩
  simp only [mainRun, h, hrl]
  rfl

/-- Witness for C8 at a concrete input. -/
theorem c8_zero_length_witness :
    (mainRun reads0 (fun _ => some [3]) 5 =
        some (.done 0 initState false (sha256 [])) ∧
      initState.trace = [] ∧ initState.fileBytes = [] ∧
      sha256Hex [] =
        "e3b0c44298fc1c149afbf4c8996fb92427ae41e4649b934ca495991b7852b855") :=
  c8_zero_length reads0 (fun _ => some [3]) 5 (by decide)

/-- C9: whenever every chunk fetch succeeds with a non-empty body, the
fetching loop terminates: each accepted chunk strictly increases the
position, so some finite fuel completes the loop with the exit condition
reached. -/
theorem c9_termination (total : Nat) (oracle : Nat → Option (List Nat))
    (hne : ∀ i, ∃ c, oracle i = some c ∧ c ≠ []) (s : LoopState) :
    ∃ fuel sf, runLoop total oracle fuel s = some (some sf) ∧
      total ≤ sf.position := by
  have main : ∀ (m : Nat) (t : LoopState), total - t.position ≤ m →
      ∃ fuel sf, runLoop total oracle fuel t = some (some sf) ∧
        total ≤ sf.position := by
    intro m
    induction m with
    | zero =>
      intro t hm
      refine ⟨0, t, ?_, by omega⟩
      rw [runLoop, if_neg (by omega)]
    | succ m ih =>
      intro t hm
      by_cases hpos : t.position < total
      · obtain ⟨c, hc, hcne⟩ := hne t.trace.length
        have hcempty : c.isEmpty = false := by
          cases c
          · exact absurd rfl hcne
          · rfl
        have hclen : 0 < c.length := List.length_pos.mpr hcne
        obtain ⟨fuel, sf, hrun, hsf⟩ := ih
          { position := t.position + c.length,
            allData := t.allData ++ c,
            fileBytes := t.fileBytes ++ c,
            accepted := t.accepted ++ [c],
            trace := t.trace ++ [t.position] }
          (by simp only; omega)
        refine ⟨fuel + 1, sf, ?_, hsf⟩
        rw [runLoop, if_pos hpos, loopStep_accept oracle t c hc hcempty]
        exact hrun
      · exact ⟨0, t, by rw [runLoop, if_neg hpos], by omega⟩
  exact main (total - s.position) s le_rfl

/-- Witness for C9 at a concrete input: a fetcher that always returns the
1-byte body `[5]` makes the loop with `total_size = 3` terminate. -/
theorem c9_termination_witness :
    ∃ fuel sf, runLoop 3 (fun _ => some [5]) fuel initState =
      some (some sf) ∧ 3 ≤ sf.position :=
  c9_termination 3 (fun _ => some [5])
    (fun _ => ⟨[5], rfl, by decide⟩) initState

/-- C10: the content-length search scans every byte accumulated before the
separator was detected, not only the header section.  Concretely: one
1024-byte-or-less read delivers headers with no content-length field
followed by the separator and body bytes; the header section (the bytes
before the separator) contains no line beginning with `content-length:`,
yet size discovery succeeds with the value 5 found in the body bytes. -/
theorem c10_body_scanned :
    readResponse c10reads =
      asciiBytes "HTTP/1.1 200 OK\r\nServer: x" ++ sepBytes ++
        asciiBytes "content-length: 5\r\n" ∧
    ((strLines (asciiBytes "HTTP/1.1 200 OK\r\nServer: x\r\n\r\n")).all
      (fun line => !isCLLine line)) = true ∧
    (c10reads.all fun r => r.length ≤ 1024) = true ∧
    get_total_size c10reads = some 5 := by
  refine ⟨by decide, by decide, by decide, by decide⟩

/-- Witness for C1 at a concrete input: total size 4, two accepted chunks
`[1,2]` and `[3,4]`; the file holds their concatenation and the digest is
the SHA-256 of those four bytes. -/
theorem c1_assembly_digest_witness :
    st4.fileBytes = st4.accepted.flatten ∧
    st4.allData = st4.fileBytes ∧
    (∀ c ∈ st4.accepted, c ≠ []) ∧
    st4.accepted = ((List.range st4.trace.length).filterMap oracle12).filter
      (fun c => !c.isEmpty) ∧
    sha256 [1, 2, 3, 4] = sha256 st4.fileBytes :=
  c1_assembly_digest r4 oracle12 3 4 st4 false (sha256 [1, 2, 3, 4])
    (by decide)

end HttpClient
